import Mathlib

/-!
Verification of `proj_service.py` (PROJ pipeline parser and Infinity reducer).

Shallow embedding of the two core functions of `src/api/proj_service.py`:

* `proj_string_to_list` — tokenizes a PROJ4 pipeline string with the regex
  `\+(?P<param>\w+)\=?(?P<value>\S+)?\s*?` (scanned with `re.finditer`) and
  folds the tokens into a list of steps, a `"step"` token acting as a
  step boundary that flushes the current (non-empty) step dictionary.

* `proj_list_to_infinity_params` — walks the steps, classifies each by its
  `"proj"` value against fixed sets (`ignored_steps`, `supported_proj`,
  `"helmert"`), merging supported-projection parameters into a `proj`
  bucket and helmert parameters into a `trf` bucket, and raising
  `NotImplementedError` (with one of two messages) otherwise.  A Python
  dict subscript `step["proj"]` on a step lacking the key raises `KeyError`,
  which the embedding models as an explicit error variant.

Python dictionaries are modelled as association lists with Python's
assignment semantics (`insert` overwrites in place or appends), and Python
exceptions as an `Except` error type.
-/

/-- Python's `\w` word-character class, restricted to ASCII input
(the PROJ strings handled by the service are plain ASCII). -/
def isWordChar (c : Char) : Bool :=
  c.isAlphanum || c = '_'

/-- Python's `\s` whitespace class on ASCII input:
space, tab, newline, carriage return, vertical tab, form feed. -/
def isSpaceChar (c : Char) : Bool :=
  c = ' ' || c = '\t' || c = '\n' || c = '\r' || c = '\x0b' || c = '\x0c'

/-- After the captured name, the regex fragment `\=?` consumes a single
`'='` character when one is present. -/
def dropEq : List Char → List Char
  | '=' :: r => r
  | r => r

/-- The scan performed by `re.finditer` with the pattern
`\+(?P<param>\w+)\=?(?P<value>\S+)?\s*?`: at each `'+'` followed by at
least one word character, greedily capture the name (`\w+`), optionally
consume one `'='`, greedily capture the value as a run of non-whitespace
characters (`\S+`, `none` when empty), and resume after the match;
any other character is skipped.  `fuel` is an upper bound on the number
of characters still to scan; each call consumes at least one character,
so `fuel = l.length` is always sufficient. -/
def scanTokensFuel : Nat → List Char → List (String × Option String)
  | 0, _ => []
  | _ + 1, [] => []
  | fuel + 1, c :: rest =>
    let name := rest.takeWhile isWordChar
    if c = '+' && !name.isEmpty then
      let afterEq := dropEq (rest.dropWhile isWordChar)
      let value := afterEq.takeWhile (fun ch => !isSpaceChar ch)
      let rest3 := afterEq.dropWhile (fun ch => !isSpaceChar ch)
      (String.mk name, if value.isEmpty then none else some (String.mk value))
        :: scanTokensFuel fuel rest3
    else
      scanTokensFuel fuel rest

/-- All `+name[=value]` tokens of a PROJ string, in order, as produced by
`_RE_PROJ_PARAM.finditer(proj_string)` in the source. -/
def tokensOf (s : String) : List (String × Option String) :=
  scanTokensFuel s.data.length s.data

/-- One pipeline step: a Python dict from parameter name to optional value
(`none` models Python `None`, produced for a flag-style `+name` token). -/
abbrev Step := List (String × Option String)

/-- Python dict assignment `d[k] = v`: overwrite the entry in place when
the key is present, otherwise append the new entry at the end (dicts keep
insertion order). -/
def Step.insert : Step → String → Option String → Step
  | [], k, v => [(k, v)]
  | kv :: rest, k, v =>
    if kv.1 = k then (k, v) :: rest else kv :: Step.insert rest k v

/-- Python dict subscript / lookup: the value stored at key `k`, when
present. -/
def Step.get? : Step → String → Option (Option String)
  | [], _ => none
  | kv :: rest, k => if kv.1 = k then some kv.2 else Step.get? rest k

/-- Python `step.keys()`: the keys of a step, in insertion order. -/
def Step.keys (st : Step) : List String :=
  st.map Prod.fst

/-- The token-folding loop of `proj_string_to_list`: a token whose name is
exactly `"step"` flushes the current step to the output when it is
non-empty (and is never stored itself); every other token is inserted into
the current step; at the end of input, a non-empty current step is
appended. -/
def stepsOfTokens : List (String × Option String) → Step → List Step
  | [], current => if current.isEmpty then [] else [current]
  | (k, v) :: rest, current =>
    if k = "step" then
      if current.isEmpty then
        stepsOfTokens rest current
      else
        current :: stepsOfTokens rest []
    else
      stepsOfTokens rest (current.insert k v)

/-- `proj_string_to_list(proj_string)`: parse a PROJ string (including
pipelines) into a list of steps. -/
def proj_string_to_list (proj_string : String) : List Step :=
  stepsOfTokens (tokensOf proj_string) []

/-- Proj steps that are not relevant to Infinity. -/
def ignored_steps : List String :=
  ["push", "pop", "unitconvert", "axisswap", "pipeline", "cart"]

/-- Projection types supported by Infinity. -/
def supported_proj : List String :=
  ["merc", "tmerc", "omerc", "utm", "cass", "lcc", "stere", "sterea"]

/-- Helmert velocity parameters that are not supported. -/
def helmert_unsupported_params : List String :=
  ["dx", "dy", "dz", "drx", "dry", "drz", "ds", "t_epoch"]

/-- The two parameter buckets returned by `proj_list_to_infinity_params`:
`infinity_params = {"proj": {}, "trf": {}}`. -/
structure InfinityParams where
  proj : Step
  trf : Step
deriving DecidableEq, Repr

/-- The ways `proj_list_to_infinity_params` can raise: a `KeyError` from
the dict subscript `step["proj"]`, or a `NotImplementedError` with a
message. -/
inductive ReduceError where
  | keyError (key : String)
  | notImplementedError (msg : String)
deriving DecidableEq, Repr

deriving instance DecidableEq for Except

/-- The message of the `NotImplementedError` raised for a velocity-based
Helmert step. -/
def helmertErrMsg : String :=
  "Unsupported velocity based Helmert transformation"

/-- The message of the `NotImplementedError` raised for an unclassifiable
projection type. -/
def unsupportedErrMsg : String :=
  "Unsupported projection type parameter"

/-- The loop `for key in step: bucket[key] = step[key]`: merge every entry
of a step into a bucket, overwriting on key collision. -/
def mergeInto (bucket : Step) (step : Step) : Step :=
  step.foldl (fun b kv => b.insert kv.1 kv.2) bucket

/-- One iteration of the reducer's loop body on a single step:
dict subscript `step["proj"]` (raising `KeyError` when absent), then the
`ignored_steps` / `supported_proj` / `"helmert"` / fallthrough
classification of the source. -/
def reduceStep (acc : InfinityParams) (step : Step) :
    Except ReduceError InfinityParams :=
  match step.get? "proj" with
  | none => .error (.keyError "proj")
  | some v =>
    if ignored_steps.any (fun s => v = some s) then
      .ok acc
    else if supported_proj.any (fun s => v = some s) then
      .ok { acc with proj := mergeInto acc.proj step }
    else if v = some "helmert" then
      if step.keys.any (fun k => k ∈ helmert_unsupported_params) then
        .error (.notImplementedError helmertErrMsg)
      else
        .ok { acc with trf := mergeInto acc.trf step }
    else
      .error (.notImplementedError unsupportedErrMsg)

/-- The reducer's loop over the step list, threading the accumulated
buckets and propagating the first raised error. -/
def reduceSteps (acc : InfinityParams) : List Step → Except ReduceError InfinityParams
  | [] => .ok acc
  | s :: rest =>
    match reduceStep acc s with
    | .error e => .error e
    | .ok acc2 => reduceSteps acc2 rest

/-- `proj_list_to_infinity_params(proj_list)`: reduce a parsed pipeline to
the Infinity parameter buckets, or raise. -/
def proj_list_to_infinity_params (proj_list : List Step) :
    Except ReduceError InfinityParams :=
  reduceSteps ⟨[], []⟩ proj_list

/-! Unfolding equations for the dict operations. -/

@[simp]
theorem Step.keys_nil : Step.keys [] = [] := rfl

@[simp]
theorem Step.keys_cons (p : String × Option String) (l : Step) :
    Step.keys (p :: l) = p.1 :: Step.keys l := rfl

@[simp]
theorem Step.get?_nil (k : String) : Step.get? [] k = none := rfl

theorem Step.get?_cons (p : String × Option String) (l : Step) (k : String) :
    Step.get? (p :: l) k = if p.1 = k then some p.2 else Step.get? l k := rfl

theorem Step.insert_nil (k : String) (v : Option String) :
    Step.insert [] k v = [(k, v)] := rfl

theorem Step.insert_cons (p : String × Option String) (l : Step) (k : String)
    (v : Option String) :
    Step.insert (p :: l) k v =
      if p.1 = k then (k, v) :: l else p :: Step.insert l k v := rfl

/-! Basic lemmas about the dict operations. -/

theorem Step.insert_ne_nil (st : Step) (k : String) (v : Option String) :
    Step.insert st k v ≠ [] := by
  cases st with
  | nil => simp [Step.insert_nil]
  | cons p rest =>
    rw [Step.insert_cons]
    split <;> simp

theorem Step.mem_keys_insert (st : Step) (k a : String) (v : Option String) :
    a ∈ Step.keys (Step.insert st k v) ↔ a = k ∨ a ∈ Step.keys st := by
  induction st with
  | nil => simp [Step.insert_nil]
  | cons p rest ih =>
    by_cases h : p.1 = k
    · rw [Step.insert_cons, if_pos h]
      simp [h]
    · rw [Step.insert_cons, if_neg h]
      simp only [Step.keys_cons, List.mem_cons, ih]
      tauto

theorem Step.get?_insert_self (st : Step) (k : String) (v : Option String) :
    Step.get? (Step.insert st k v) k = some v := by
  induction st with
  | nil => simp [Step.insert_nil, Step.get?_cons]
  | cons p rest ih =>
    by_cases h : p.1 = k
    · rw [Step.insert_cons, if_pos h, Step.get?_cons]
      simp
    · rw [Step.insert_cons, if_neg h, Step.get?_cons, if_neg h, ih]

theorem Step.get?_insert_ne (st : Step) (k a : String) (v : Option String)
    (h : a ≠ k) : Step.get? (Step.insert st k v) a = Step.get? st a := by
  induction st with
  | nil =>
    rw [Step.insert_nil, Step.get?_cons, if_neg (fun hh : k = a => h hh.symm)]
  | cons p rest ih =>
    by_cases hk : p.1 = k
    · rw [Step.insert_cons, if_pos hk, Step.get?_cons, Step.get?_cons,
        if_neg (fun hh : k = a => h hh.symm), if_neg (hk ▸ fun hh : p.1 = a => h (hk ▸ hh).symm)]
    · rw [Step.insert_cons, if_neg hk, Step.get?_cons, Step.get?_cons, ih]

theorem Step.mem_keys_of_get? (st : Step) (k : String) (v : Option String)
    (h : Step.get? st k = some v) : k ∈ Step.keys st := by
  induction st with
  | nil => simp at h
  | cons p rest ih =>
    rw [Step.get?_cons] at h
    by_cases hk : p.1 = k
    · simp [hk]
    · rw [if_neg hk] at h
      simp [Or.inr (ih h)]

/-! Lemmas about merging a step into a bucket. -/

theorem mergeInto_nil (b : Step) : mergeInto b [] = b := rfl

theorem mergeInto_cons (b : Step) (k : String) (v : Option String)
    (rest : Step) :
    mergeInto b ((k, v) :: rest) = mergeInto (Step.insert b k v) rest := rfl

theorem mergeInto_ne_nil (b st : Step) (h : b ≠ []) : mergeInto b st ≠ [] := by
  induction st generalizing b with
  | nil => simpa [mergeInto_nil]
  | cons kv rest ih =>
    obtain ⟨k, v⟩ := kv
    rw [mergeInto_cons]
    exact ih _ (Step.insert_ne_nil b k v)

theorem mem_keys_mergeInto_mono (b st : Step) (a : String)
    (h : a ∈ Step.keys b) : a ∈ Step.keys (mergeInto b st) := by
  induction st generalizing b with
  | nil => simpa [mergeInto_nil]
  | cons kv rest ih =>
    obtain ⟨k, v⟩ := kv
    rw [mergeInto_cons]
    exact ih _ ((Step.mem_keys_insert b k a v).mpr (Or.inr h))

theorem mem_keys_mergeInto (b st : Step) (k : String) (v : Option String)
    (h : (k, v) ∈ st) : k ∈ Step.keys (mergeInto b st) := by
  induction st generalizing b with
  | nil => simp at h
  | cons kv rest ih =>
    obtain ⟨k0, v0⟩ := kv
    rw [mergeInto_cons]
    rcases List.mem_cons.mp h with heq | hmem
    · injection heq with h1 h2
      subst h1; subst h2
      exact mem_keys_mergeInto_mono _ rest k
        ((Step.mem_keys_insert b k k v).mpr (Or.inl rfl))
    · exact ih _ hmem

theorem get?_mergeInto_of_not_mem (b st : Step) (a : String)
    (h : a ∉ Step.keys st) : Step.get? (mergeInto b st) a = Step.get? b a := by
  induction st generalizing b with
  | nil => simp [mergeInto_nil]
  | cons kv rest ih =>
    obtain ⟨k, v⟩ := kv
    simp only [Step.keys_cons, List.mem_cons] at h
    push_neg at h
    rw [mergeInto_cons, ih _ h.2, Step.get?_insert_ne _ _ _ _ h.1]

theorem get?_mergeInto_of_mem (b st : Step) (a : String)
    (hnd : (Step.keys st).Nodup) (h : a ∈ Step.keys st) :
    Step.get? (mergeInto b st) a = Step.get? st a := by
  induction st generalizing b with
  | nil => simp at h
  | cons kv rest ih =>
    obtain ⟨k, v⟩ := kv
    simp only [Step.keys_cons, List.nodup_cons] at hnd
    rw [mergeInto_cons]
    by_cases hak : a = k
    · subst hak
      rw [get?_mergeInto_of_not_mem _ _ _ hnd.1, Step.get?_insert_self,
        Step.get?_cons, if_pos rfl]
    · have hmem : a ∈ Step.keys rest := by
        rcases List.mem_cons.mp (Step.keys_cons (k, v) rest ▸ h) with hh | hh
        · exact absurd hh hak
        · exact hh
      rw [ih _ hnd.2 hmem, Step.get?_cons,
        if_neg (fun hh : k = a => hak hh.symm)]

/-! Lemmas about the parser fold and the tokenizer. -/

theorem stepsOfTokens_ne_nil (toks : List (String × Option String))
    (cur : Step) : ∀ st ∈ stepsOfTokens toks cur, st ≠ [] := by
  induction toks generalizing cur with
  | nil =>
    intro st hst
    by_cases hc : cur.isEmpty
    · simp [stepsOfTokens, hc] at hst
    · simp only [stepsOfTokens, if_neg hc, List.mem_singleton] at hst
      subst hst
      simpa [List.isEmpty_iff] using hc
  | cons t rest ih =>
    obtain ⟨k, v⟩ := t
    intro st hst
    by_cases hk : k = "step"
    · by_cases hc : cur.isEmpty
      · rw [stepsOfTokens, if_pos hk, if_pos hc] at hst
        exact ih cur st hst
      · rw [stepsOfTokens, if_pos hk, if_neg hc] at hst
        rcases List.mem_cons.mp hst with rfl | hmem
        · simpa [List.isEmpty_iff] using hc
        · exact ih [] st hmem
    · rw [stepsOfTokens, if_neg hk] at hst
      exact ih _ st hst

theorem stepsOfTokens_no_step_keys (toks : List (String × Option String))
    (cur : Step) (hcur : "step" ∉ Step.keys cur) :
    ∀ st ∈ stepsOfTokens toks cur, "step" ∉ Step.keys st := by
  induction toks generalizing cur with
  | nil =>
    intro st hst
    by_cases hc : cur.isEmpty
    · simp [stepsOfTokens, hc] at hst
    · simp only [stepsOfTokens, if_neg hc, List.mem_singleton] at hst
      subst hst
      exact hcur
  | cons t rest ih =>
    obtain ⟨k, v⟩ := t
    intro st hst
    by_cases hk : k = "step"
    · by_cases hc : cur.isEmpty
      · rw [stepsOfTokens, if_pos hk, if_pos hc] at hst
        exact ih cur hcur st hst
      · rw [stepsOfTokens, if_pos hk, if_neg hc] at hst
        rcases List.mem_cons.mp hst with rfl | hmem
        · exact hcur
        · exact ih [] (by simp) st hmem
    · rw [stepsOfTokens, if_neg hk] at hst
      refine ih _ ?_ st hst
      rw [Step.mem_keys_insert]
      push_neg
      exact ⟨fun hh => hk hh.symm, hcur⟩

theorem stepsOfTokens_no_step (toks : List (String × Option String))
    (h : ∀ kv ∈ toks, kv.1 ≠ "step") (cur : Step) :
    stepsOfTokens toks cur =
      if (mergeInto cur toks).isEmpty then [] else [mergeInto cur toks] := by
  induction toks generalizing cur with
  | nil => rw [stepsOfTokens, mergeInto_nil]
  | cons t rest ih =>
    obtain ⟨k, v⟩ := t
    have hk : k ≠ "step" := h (k, v) (List.mem_cons_self _ _)
    rw [stepsOfTokens, if_neg hk, mergeInto_cons,
      ih (fun kv hkv => h kv (List.mem_cons_of_mem _ hkv))]

theorem scanTokensFuel_no_plus (fuel : Nat) (l : List Char)
    (h : ∀ c ∈ l, c ≠ '+') : scanTokensFuel fuel l = [] := by
  induction fuel generalizing l with
  | zero => rw [scanTokensFuel]
  | succ n ih =>
    cases l with
    | nil => rw [scanTokensFuel]
    | cons c rest =>
      have hc : (c = '+') = False := by
        simp [h c (List.mem_cons_self _ _)]
      simp only [scanTokensFuel, hc, decide_False, Bool.false_and, if_false]
      exact ih rest (fun x hx => h x (List.mem_cons_of_mem _ hx))

/-! Lemmas about the reducer loop. -/

theorem reduceSteps_cons (acc : InfinityParams) (s : Step)
    (rest : List Step) :
    reduceSteps acc (s :: rest) =
      match reduceStep acc s with
      | .error e => .error e
      | .ok acc2 => reduceSteps acc2 rest := rfl

theorem reduceSteps_error_append (acc : InfinityParams) (pre post : List Step)
    (e : ReduceError) (h : reduceSteps acc pre = .error e) :
    reduceSteps acc (pre ++ post) = .error e := by
  induction pre generalizing acc with
  | nil => simp [reduceSteps] at h
  | cons s rest ih =>
    rw [List.cons_append, reduceSteps_cons]
    rw [reduceSteps_cons] at h
    cases hs : reduceStep acc s with
    | error e2 => rw [hs] at h; simpa using h
    | ok acc2 => rw [hs] at h; exact ih acc2 h

/-! Classification lemmas for a single reducer iteration. -/

theorem reduceStep_missing_proj (acc : InfinityParams) (s : Step)
    (h : Step.get? s "proj" = none) :
    reduceStep acc s = .error (.keyError "proj") := by
  simp only [reduceStep, h]

theorem supported_not_ignored (p : String) (hp : p ∈ supported_proj) :
    (ignored_steps.any fun x => (some p : Option String) = some x) = false := by
  rw [List.any_eq_false]
  intro x hx
  simp only [decide_eq_true_eq, Option.some.injEq]
  intro heq
  subst heq
  fin_cases hx <;> exact absurd hp (by decide)

theorem supported_any_true (p : String) (hp : p ∈ supported_proj) :
    (supported_proj.any fun x => (some p : Option String) = some x) = true :=
  List.any_eq_true.mpr ⟨p, hp, by simp⟩

theorem reduceStep_supported (acc : InfinityParams) (s : Step) (p : String)
    (h : Step.get? s "proj" = some (some p)) (hp : p ∈ supported_proj) :
    reduceStep acc s = .ok { acc with proj := mergeInto acc.proj s } := by
  simp only [reduceStep, h, supported_not_ignored p hp, supported_any_true p hp,
    Bool.false_eq_true, if_false, if_true]

theorem reduceStep_helmert_error (acc : InfinityParams) (s : Step)
    (h : Step.get? s "proj" = some (some "helmert"))
    (hvel : ∃ a ∈ Step.keys s, a ∈ helmert_unsupported_params) :
    reduceStep acc s = .error (.notImplementedError helmertErrMsg) := by
  obtain ⟨a, ha, hmem⟩ := hvel
  have h1 : (ignored_steps.any fun x => (some "helmert" : Option String) = some x)
      = false := by decide
  have h2 : (supported_proj.any fun x => (some "helmert" : Option String) = some x)
      = false := by decide
  have h3 : ((Step.keys s).any fun k => k ∈ helmert_unsupported_params) = true :=
    List.any_eq_true.mpr ⟨a, ha, by simpa⟩
  simp only [reduceStep, h, h1, h2, h3, Bool.false_eq_true, if_false, if_pos rfl,
    if_true]

theorem reduceStep_helmert_ok (acc : InfinityParams) (s : Step)
    (h : Step.get? s "proj" = some (some "helmert"))
    (hvel : ∀ a ∈ Step.keys s, a ∉ helmert_unsupported_params) :
    reduceStep acc s = .ok { acc with trf := mergeInto acc.trf s } := by
  have h1 : (ignored_steps.any fun x => (some "helmert" : Option String) = some x)
      = false := by decide
  have h2 : (supported_proj.any fun x => (some "helmert" : Option String) = some x)
      = false := by decide
  have h3 : ((Step.keys s).any fun k => k ∈ helmert_unsupported_params) = false := by
    rw [List.any_eq_false]
    intro a ha
    simpa using hvel a ha
  simp only [reduceStep, h, h1, h2, h3, Bool.false_eq_true, if_false, if_pos rfl,
    if_true]

theorem reduceStep_unsupported (acc : InfinityParams) (s : Step)
    (v : Option String) (h : Step.get? s "proj" = some v)
    (hig : ∀ x ∈ ignored_steps, v ≠ some x)
    (hsup : ∀ x ∈ supported_proj, v ≠ some x)
    (hhel : v ≠ some "helmert") :
    reduceStep acc s = .error (.notImplementedError unsupportedErrMsg) := by
  have h1 : (ignored_steps.any fun x => v = some x) = false := by
    rw [List.any_eq_false]
    intro x hx
    simpa using hig x hx
  have h2 : (supported_proj.any fun x => v = some x) = false := by
    rw [List.any_eq_false]
    intro x hx
    simpa using hsup x hx
  simp only [reduceStep, h, h1, h2, Bool.false_eq_true, if_false, if_neg hhel]

/-!
Claim theorems.
-/

/-- C1 (counterexample): parsing
`"+proj=pipeline +step +proj=cart +step +proj=merc +lon_0=0"` does NOT
return the two steps `[{proj: cart}, {proj: merc, lon_0: 0}]` claimed:
the leading `+proj=pipeline` token is flushed as a step of its own by the
first `+step` boundary, so the result has three steps. -/
theorem parse_pipeline_example_refuted :
    proj_string_to_list
        "+proj=pipeline +step +proj=cart +step +proj=merc +lon_0=0" ≠
      [[("proj", some "cart")], [("proj", some "merc"), ("lon_0", some "0")]] := by
  decide

/-- C1 (amended): parsing
`"+proj=pipeline +step +proj=cart +step +proj=merc +lon_0=0"` returns
exactly three steps: `{proj: pipeline}`, `{proj: cart}` and
`{proj: merc, lon_0: 0}`; the leading `+proj=pipeline` token forms its own
first step because the first `+step` boundary flushes it. -/
theorem parse_pipeline_example_three_steps :
    proj_string_to_list
        "+proj=pipeline +step +proj=cart +step +proj=merc +lon_0=0" =
      [[("proj", some "pipeline")], [("proj", some "cart")],
       [("proj", some "merc"), ("lon_0", some "0")]] := by
  decide

/-- C2 (counterexample): on a step with no `proj` key the reducer fails
with `KeyError("proj")` (from the dict subscript `step["proj"]`), which is
a different kind of error from the `NotImplementedError` used for an
unrecognized proj value. -/
theorem reduce_missing_proj_refuted :
    proj_list_to_infinity_params [[("x0", some "1")]] =
        .error (.keyError "proj") ∧
      ReduceError.keyError "proj" ≠ .notImplementedError unsupportedErrMsg := by
  decide

/-- C2 (amended): whenever the reducer's loop reaches a step that has no
`proj` key, it fails with `KeyError("proj")` — a missing-key error, not the
`UnsupportedOperation` (`NotImplementedError`) failure. -/
theorem reduce_missing_proj_keyError :
    (∀ (acc : InfinityParams) (s : Step) (rest : List Step),
        Step.get? s "proj" = none →
        reduceSteps acc (s :: rest) = .error (.keyError "proj")) ∧
    proj_list_to_infinity_params [[("x0", some "1")]] =
      .error (.keyError "proj") := by
  refine ⟨fun acc s rest h => ?_, by decide⟩
  rw [reduceSteps_cons, reduceStep_missing_proj acc s h]

/-- C2 (witness): the amended statement applied to a concrete
`proj`-less step. -/
theorem reduce_missing_proj_keyError_witness :
    reduceSteps ⟨[], []⟩ [[("x0", some "1")], [("proj", some "merc")]] =
      .error (.keyError "proj") :=
  reduce_missing_proj_keyError.1 ⟨[], []⟩ [("x0", some "1")]
    [[("proj", some "merc")]] (by decide)

/-- C3 (counterexample): the empty input contains no token named `step`,
yet `proj_string_to_list` returns zero steps, not one. -/
theorem parse_single_step_refuted :
    (∀ kv ∈ tokensOf "", kv.1 ≠ "step") ∧
      (proj_string_to_list "").length ≠ 1 := by
  decide

/-- C3 (amended): for every input string containing at least one parsed
token and no token named `step`, `proj_string_to_list` returns exactly one
step, and that step is precisely the dict built by inserting every
`+name[=value]` token parsed from the input, in order, into an initially
empty dict — so it contains every parsed token, name and value (a later
token with the same name overwriting an earlier one, as in a Python
dict); in particular every token's name is a key of the step. -/
theorem parse_single_step_of_tokens (s : String)
    (hne : tokensOf s ≠ [])
    (hstep : ∀ kv ∈ tokensOf s, kv.1 ≠ "step") :
    proj_string_to_list s = [mergeInto [] (tokensOf s)] ∧
      ∀ kv ∈ tokensOf s, kv.1 ∈ Step.keys (mergeInto [] (tokensOf s)) := by
  constructor
  · rw [proj_string_to_list, stepsOfTokens_no_step _ hstep]
    have hmne : mergeInto [] (tokensOf s) ≠ [] := by
      obtain ⟨t, rest, htr⟩ : ∃ t rest, tokensOf s = t :: rest := by
        cases h : tokensOf s with
        | nil => exact absurd h hne
        | cons t rest => exact ⟨t, rest, rfl⟩
      obtain ⟨k, v⟩ := t
      rw [htr, mergeInto_cons]
      exact mergeInto_ne_nil _ _ (Step.insert_ne_nil [] k v)
    simp [List.isEmpty_iff, hmne]
  · intro kv hkv
    obtain ⟨k, v⟩ := kv
    exact mem_keys_mergeInto [] (tokensOf s) k v hkv

/-- C3 (witness): the amended statement applied to a concrete
single-step input. -/
theorem parse_single_step_of_tokens_witness :
    proj_string_to_list "+proj=merc +lon_0=3" =
        [mergeInto [] (tokensOf "+proj=merc +lon_0=3")] ∧
      ∀ kv ∈ tokensOf "+proj=merc +lon_0=3",
        kv.1 ∈ Step.keys (mergeInto [] (tokensOf "+proj=merc +lon_0=3")) :=
  parse_single_step_of_tokens "+proj=merc +lon_0=3" (by decide) (by decide)

/-- C4: a step whose `proj` value is `"helmert"` fails with the
`UnsupportedHelmertVariant` error exactly when its key set meets
`{dx, dy, dz, drx, dry, drz, ds, t_epoch}`; otherwise all of its
parameters (including `proj` itself) are merged into the `trf` bucket with
no failure.  In particular `{proj: helmert, dx: "1"}` fails and
`{proj: helmert, x0: "1"}` succeeds with a non-empty `trf`. -/
theorem helmert_step_classification :
    (∀ (acc : InfinityParams) (s : Step),
        Step.get? s "proj" = some (some "helmert") →
        (∃ a ∈ Step.keys s, a ∈ helmert_unsupported_params) →
        reduceStep acc s = .error (.notImplementedError helmertErrMsg)) ∧
    (∀ (acc : InfinityParams) (s : Step),
        Step.get? s "proj" = some (some "helmert") →
        (∀ a ∈ Step.keys s, a ∉ helmert_unsupported_params) →
        reduceStep acc s = .ok { acc with trf := mergeInto acc.trf s }) ∧
    proj_list_to_infinity_params [[("proj", some "helmert"), ("dx", some "1")]] =
      .error (.notImplementedError helmertErrMsg) ∧
    proj_list_to_infinity_params [[("proj", some "helmert"), ("x0", some "1")]] =
      .ok ⟨[], [("proj", some "helmert"), ("x0", some "1")]⟩ := by
  exact ⟨fun acc s h hvel => reduceStep_helmert_error acc s h hvel,
    fun acc s h hvel => reduceStep_helmert_ok acc s h hvel, by decide, by decide⟩

/-- C4 (witness): the helmert classification applied to concrete steps. -/
theorem helmert_step_classification_witness :
    reduceStep ⟨[], []⟩ [("proj", some "helmert"), ("dx", some "1")] =
        .error (.notImplementedError helmertErrMsg) ∧
      reduceStep ⟨[], []⟩ [("proj", some "helmert"), ("x0", some "1")] =
        .ok ⟨[], [("proj", some "helmert"), ("x0", some "1")]⟩ :=
  ⟨helmert_step_classification.1 ⟨[], []⟩ _ (by decide)
      ⟨"dx", by decide, by decide⟩,
    helmert_step_classification.2.1 ⟨[], []⟩ _ (by decide) (by decide)⟩

/-- C5: a step whose `proj` value is neither in the ignored set, nor in
the supported-projection set, nor `"helmert"` (e.g. `"somerc"`), makes the
reducer fail with the `UnsupportedOperation` error. -/
theorem unsupported_operation_error :
    (∀ (acc : InfinityParams) (s : Step) (v : Option String),
        Step.get? s "proj" = some v →
        (∀ x ∈ ignored_steps, v ≠ some x) →
        (∀ x ∈ supported_proj, v ≠ some x) →
        v ≠ some "helmert" →
        reduceStep acc s = .error (.notImplementedError unsupportedErrMsg)) ∧
    proj_list_to_infinity_params [[("proj", some "somerc")]] =
      .error (.notImplementedError unsupportedErrMsg) := by
  exact ⟨reduceStep_unsupported, by decide⟩

/-- C5 (witness): the unsupported-operation classification applied to a
concrete `somerc` step. -/
theorem unsupported_operation_error_witness :
    reduceStep ⟨[], []⟩ [("proj", some "somerc")] =
      .error (.notImplementedError unsupportedErrMsg) :=
  unsupported_operation_error.1 ⟨[], []⟩ [("proj", some "somerc")]
    (some "somerc") (by decide) (by decide) (by decide) (by decide)

/-- C6: the reduction is fail-fast and atomic: once a prefix of the step
list fails, the whole list fails with the same (first) error, whatever the
remaining steps are; and for every input the reducer either returns a full
`InfinityParams` result or an error, never both or a partial result. -/
theorem reduce_fail_fast_atomic :
    (∀ (acc : InfinityParams) (pre post : List Step) (e : ReduceError),
        reduceSteps acc pre = .error e →
        reduceSteps acc (pre ++ post) = .error e) ∧
    (∀ l : List Step, (∃ r, proj_list_to_infinity_params l = .ok r) ∨
        (∃ e, proj_list_to_infinity_params l = .error e)) := by
  constructor
  · exact reduceSteps_error_append
  · intro l
    cases h : proj_list_to_infinity_params l with
    | ok r => exact Or.inl ⟨r, rfl⟩
    | error e => exact Or.inr ⟨e, rfl⟩

/-- C6 (witness): a failing first step aborts the reduction regardless of
the steps after it. -/
theorem reduce_fail_fast_atomic_witness :
    reduceSteps ⟨[], []⟩
        ([[("proj", some "somerc")]] ++ [[("proj", some "merc")]]) =
      .error (.notImplementedError unsupportedErrMsg) :=
  reduce_fail_fast_atomic.1 ⟨[], []⟩ [[("proj", some "somerc")]]
    [[("proj", some "merc")]] (.notImplementedError unsupportedErrMsg)
    (by decide)

/-- C7: `proj_string_to_list` never returns a step with no parameters, and
consecutive `step` boundaries produce no empty step:
`"+step +step +proj=merc"` parses to exactly `[{proj: merc}]`. -/
theorem parse_no_empty_steps :
    (∀ (s : String), ∀ st ∈ proj_string_to_list s, st ≠ []) ∧
    proj_string_to_list "+step +step +proj=merc" = [[("proj", some "merc")]] := by
  refine ⟨fun s st hst => ?_, by decide⟩
  exact stepsOfTokens_ne_nil _ _ st hst

/-- C7 (witness): the no-empty-step property applied to a concrete parse
result. -/
theorem parse_no_empty_steps_witness :
    ([("proj", some "merc")] : Step) ≠ [] :=
  parse_no_empty_steps.1 "+step +proj=merc" [("proj", some "merc")] (by decide)

/-- C8: last-write-wins across steps: when two steps both classified as
supported projections define the same key, the `proj` bucket holds the
later step's value; the same holds for the `trf` bucket across two
helmert steps without velocity keys. -/
theorem reduce_last_write_wins :
    (∀ (s₁ s₂ : Step) (p₁ p₂ k : String) (v₁ v₂ : Option String),
        Step.get? s₁ "proj" = some (some p₁) → p₁ ∈ supported_proj →
        Step.get? s₂ "proj" = some (some p₂) → p₂ ∈ supported_proj →
        (Step.keys s₂).Nodup →
        Step.get? s₁ k = some v₁ → Step.get? s₂ k = some v₂ → v₁ ≠ v₂ →
        ∃ r, proj_list_to_infinity_params [s₁, s₂] = .ok r ∧
          Step.get? r.proj k = some v₂) ∧
    (∀ (s₁ s₂ : Step) (k : String) (v₁ v₂ : Option String),
        Step.get? s₁ "proj" = some (some "helmert") →
        Step.get? s₂ "proj" = some (some "helmert") →
        (∀ a ∈ Step.keys s₁, a ∉ helmert_unsupported_params) →
        (∀ a ∈ Step.keys s₂, a ∉ helmert_unsupported_params) →
        (Step.keys s₂).Nodup →
        Step.get? s₁ k = some v₁ → Step.get? s₂ k = some v₂ → v₁ ≠ v₂ →
        ∃ r, proj_list_to_infinity_params [s₁, s₂] = .ok r ∧
          Step.get? r.trf k = some v₂) := by
  constructor
  · intro s₁ s₂ p₁ p₂ k v₁ v₂ h1 hp1 h2 hp2 hnd hk1 hk2 hne
    refine ⟨⟨mergeInto (mergeInto [] s₁) s₂, []⟩, ?_, ?_⟩
    · rw [proj_list_to_infinity_params, reduceSteps_cons,
        reduceStep_supported ⟨[], []⟩ s₁ p₁ h1 hp1]
      show reduceSteps ⟨mergeInto [] s₁, []⟩ [s₂] = _
      rw [reduceSteps_cons, reduceStep_supported ⟨mergeInto [] s₁, []⟩ s₂ p₂ h2 hp2]
      rfl
    · show Step.get? (mergeInto (mergeInto [] s₁) s₂) k = some v₂
      rw [get?_mergeInto_of_mem _ _ _ hnd (Step.mem_keys_of_get? s₂ k v₂ hk2), hk2]
  · intro s₁ s₂ k v₁ v₂ h1 h2 hvel1 hvel2 hnd hk1 hk2 hne
    refine ⟨⟨[], mergeInto (mergeInto [] s₁) s₂⟩, ?_, ?_⟩
    · rw [proj_list_to_infinity_params, reduceSteps_cons,
        reduceStep_helmert_ok ⟨[], []⟩ s₁ h1 hvel1]
      show reduceSteps ⟨[], mergeInto [] s₁⟩ [s₂] = _
      rw [reduceSteps_cons, reduceStep_helmert_ok ⟨[], mergeInto [] s₁⟩ s₂ h2 hvel2]
      rfl
    · show Step.get? (mergeInto (mergeInto [] s₁) s₂) k = some v₂
      rw [get?_mergeInto_of_mem _ _ _ hnd (Step.mem_keys_of_get? s₂ k v₂ hk2), hk2]

/-- C8 (witness): two `merc` steps sharing `lon_0`, and two `helmert`
steps sharing `x0`, each with distinct values: the later value wins. -/
theorem reduce_last_write_wins_witness :
    (∃ r, proj_list_to_infinity_params
        [[("proj", some "merc"), ("lon_0", some "1")],
         [("proj", some "merc"), ("lon_0", some "2")]] = .ok r ∧
      Step.get? r.proj "lon_0" = some (some "2")) ∧
    (∃ r, proj_list_to_infinity_params
        [[("proj", some "helmert"), ("x0", some "1")],
         [("proj", some "helmert"), ("x0", some "2")]] = .ok r ∧
      Step.get? r.trf "x0" = some (some "2")) :=
  ⟨reduce_last_write_wins.1 _ _ "merc" "merc" "lon_0" (some "1") (some "2")
      (by decide) (by decide) (by decide) (by decide) (by decide) (by decide)
      (by decide) (by decide),
    reduce_last_write_wins.2 _ _ "x0" (some "1") (some "2")
      (by decide) (by decide) (by decide) (by decide) (by decide) (by decide)
      (by decide) (by decide)⟩

/-- C9: `proj_string_to_list` is a total function (its Lean type is
`String → List Step`, so it returns on every input); characters that never
start a `+name` token contribute nothing — an input without `'+'` parses
to the empty list, as do concrete malformed inputs, while malformed text
around a well-formed token is silently skipped. -/
theorem parser_total_and_permissive :
    (∀ s : String, (∀ c ∈ s.data, c ≠ '+') → proj_string_to_list s = []) ∧
    proj_string_to_list "" = [] ∧
    proj_string_to_list "++ == @@" = [] ∧
    proj_string_to_list "garbage +proj=merc junk" = [[("proj", some "merc")]] := by
  refine ⟨fun s h => ?_, by decide, by decide, by decide⟩
  rw [proj_string_to_list, tokensOf, scanTokensFuel_no_plus _ _ h, stepsOfTokens]
  rfl

/-- C9 (witness): the no-plus case applied to a concrete unparsable
string. -/
theorem parser_total_and_permissive_witness :
    proj_string_to_list "hello world" = [] :=
  parser_total_and_permissive.1 "hello world" (by decide)

/-- C10: a token whose captured name is exactly `"step"` is a boundary
even when it carries a value (the value is discarded; the key `"step"` is
never stored in any step), while a token whose name merely begins with
`step` (e.g. `+steps`) is stored as an ordinary parameter. -/
theorem step_token_exact_name_boundary :
    (∀ (s : String), ∀ st ∈ proj_string_to_list s, "step" ∉ Step.keys st) ∧
    proj_string_to_list "+proj=cart +step=1 +proj=merc" =
      [[("proj", some "cart")], [("proj", some "merc")]] ∧
    proj_string_to_list "+steps=2" = [[("steps", some "2")]] := by
  refine ⟨fun s st hst => ?_, by decide, by decide⟩
  exact stepsOfTokens_no_step_keys _ [] (by simp) st hst

/-- C10 (witness): the never-stores-`step` property applied to a concrete
parse result. -/
theorem step_token_exact_name_boundary_witness :
    "step" ∉ Step.keys [("proj", some "merc")] :=
  step_token_exact_name_boundary.1 "+step=1 +proj=merc"
    [("proj", some "merc")] (by decide)
